import Mathlib

/-!
Shallow embedding of src/src/bin/procstats2.rs: per-process physical-page
extraction, group aggregation over physical frame sets, the two grouping
strategies (by uid, by environment variable), the unique/shared memory
calculator, the privileged discovery step, and the main dispatch.

External collaborators (procfs, users, snap) are modelled as parameters:
page size, memory-map resolution, user-name lookup, shared-memory
enumeration, and the probe child's output are inputs to the embedded
functions, matching the boundary drawn by the source.
-/

/-- One entry of the pagemap data for a mapping: either a memory page
carrying its physical frame number, or a swap page carrying the swap
type and offset (PageInfo in procfs). -/
inductive PageData
| memoryPage (pfn : Nat)
| swapPage (swapType : Nat) (offset : Nat)
deriving DecidableEq, Repr

/-- A memory mapping: start and end address (MemoryMap.address). -/
structure MemoryMapping where
  addrStart : Nat
  addrEnd : Nat
deriving DecidableEq, Repr

/-- A process handle with the fields the program reads from it:
pid, uid, cmdline, environment, vmpte (page table size) and fd count.
In the source these are procfs lookups; they are data here. -/
structure Proc where
  pid : Int
  uid : Nat
  cmdline : List String
  environ : List (String × String)
  vmpte : Nat
  fdCount : Nat
deriving DecidableEq, Repr

/-- ProcessInfo from the source: per-process footprint. -/
structure ProcessInfo where
  pid : Int
  pfns : Finset Nat
  swapPages : Finset (Nat × Nat)
  rss : Nat
  vsz : Nat
  pte : Nat
  fds : Nat
deriving DecidableEq

/-- ProcessGroupInfo from the source: per-group aggregated footprint. -/
structure ProcessGroupInfo where
  pids : List Int
  pfns : Finset Nat
  swapPages : Finset (Nat × Nat)
  pte : Nat
  fds : Nat
deriving DecidableEq

/-- Accumulator for the loops of get_info over mappings and pages. -/
structure Accum where
  pfns : Finset Nat
  swapPages : Finset (Nat × Nat)
  rss : Nat
  vsz : Nat
deriving DecidableEq

/-- Body of the inner page loop of get_info: a memory page inserts its
pfn into the set unconditionally and adds page_size to rss only when the
pfn is nonzero; a swap page inserts its (type, offset) pair. -/
def processPage (pageSize : Nat) (acc : Accum) (page : PageData) : Accum :=
  match page with
  | PageData.memoryPage pfn =>
      { acc with
        rss := if pfn ≠ 0 then acc.rss + pageSize else acc.rss,
        pfns := insert pfn acc.pfns }
  | PageData.swapPage swapType offset =>
      { acc with swapPages := insert (swapType, offset) acc.swapPages }

/-- Body of the outer mapping loop of get_info: add the mapping extent to
vsz, then fold the page loop over the mapping's pages. -/
def processMapping (pageSize : Nat) (acc : Accum) (mm : MemoryMapping × List PageData) : Accum :=
  mm.2.foldl (processPage pageSize)
    { acc with vsz := acc.vsz + (mm.1.addrEnd - mm.1.addrStart) }

/-- get_info from the source: returns none for a process with an empty
command line, otherwise folds the mapping/page loops and packs the
footprint together with vmpte and the fd count. -/
def get_info (pageSize : Nat) (process : Proc)
    (memoryMaps : List (MemoryMapping × List PageData)) : Option ProcessInfo :=
  if process.cmdline = [] then
    none
  else
    let acc := memoryMaps.foldl (processMapping pageSize) ⟨∅, ∅, 0, 0⟩
    some { pid := process.pid, pfns := acc.pfns, swapPages := acc.swapPages,
           rss := acc.rss, vsz := acc.vsz, pte := process.vmpte,
           fds := process.fdCount }

/-- ProcessGroup from the source: a name plus the member process list.
PartialEq on the source type compares names only. -/
structure ProcessGroup where
  name : String
  processes : List Proc
deriving DecidableEq, Repr

/-- Body of the aggregation loop of processes_group_info: push the pid,
union the frame and swap sets, sum pte and fds. -/
def groupStep (acc : ProcessGroupInfo) (i : ProcessInfo) : ProcessGroupInfo :=
  { pids := acc.pids ++ [i.pid],
    pfns := acc.pfns ∪ i.pfns,
    swapPages := acc.swapPages ∪ i.swapPages,
    pte := acc.pte + i.pte,
    fds := acc.fds + i.fds }

/-- The aggregation fold of processes_group_info over already-extracted
member footprints (the loop at the end of the source function). -/
def groupInfoOfInfos (infos : List ProcessInfo) : ProcessGroupInfo :=
  infos.foldl groupStep ⟨[], ∅, ∅, 0, 0⟩

/-- The extraction stage of processes_group_info: resolve each member's
memory maps (a failing resolution skips the member), then run get_info
(a kernel process with empty cmdline is skipped too). -/
def extractInfos (pageSize : Nat)
    (getMaps : Proc → Option (List (MemoryMapping × List PageData)))
    (processes : List Proc) : List ProcessInfo :=
  (processes.filterMap (fun p => (getMaps p).map (fun m => (p, m)))).filterMap
    (fun pm => get_info pageSize pm.1 pm.2)

/-- processes_group_info from the source: extraction then aggregation. -/
def processes_group_info (pageSize : Nat)
    (getMaps : Proc → Option (List (MemoryMapping × List PageData)))
    (group : ProcessGroup) : ProcessGroupInfo :=
  groupInfoOfInfos (extractInfos pageSize getMaps group.processes)

/-- Insertion into a BTreeMap modelled as a key-sorted association list:
insert before the first larger key, replace an equal key. -/
def btreeInsert (k : Nat) (v : ProcessGroup) :
    List (Nat × ProcessGroup) → List (Nat × ProcessGroup)
  | [] => [(k, v)]
  | (k₁, v₁) :: rest =>
      if k < k₁ then (k, v) :: (k₁, v₁) :: rest
      else if k = k₁ then (k, v) :: rest
      else (k₁, v₁) :: btreeInsert k v rest

/-- ProcessSplitterByUid state: the BTreeMap from uid to group. -/
structure ProcessSplitterByUid where
  groups : List (Nat × ProcessGroup)
deriving DecidableEq, Repr

/-- ProcessSplitterByUid::new. -/
def ProcessSplitterByUid.new : ProcessSplitterByUid := ⟨[]⟩

/-- The loop of ProcessSplitterByUid::split: for each uid drain the
matching processes out of the list and insert the group into the map
(note: into the existing map, with no prior clearing). The user-name
resolution is the external parameter `username`. -/
def splitByUidAux (username : Nat → String) :
    List Nat → List Proc → List (Nat × ProcessGroup) → List (Nat × ProcessGroup)
  | [], _, groups => groups
  | uid :: uids, processes, groups =>
      splitByUidAux username uids
        (processes.filter (fun p => !(p.uid = uid : Bool)))
        (btreeInsert uid
          ⟨"user " ++ username uid, processes.filter (fun p => (p.uid = uid : Bool))⟩
          groups)

/-- ProcessSplitterByUid::split: collect the distinct uids of the input
list, then run the drain loop starting from the splitter's current map. -/
def ProcessSplitterByUid.split (username : Nat → String)
    (s : ProcessSplitterByUid) (processes : List Proc) : ProcessSplitterByUid :=
  ⟨splitByUidAux username ((processes.map Proc.uid).dedup) processes s.groups⟩

/-- ProcessSplitterByUid::collect_processes: flatten group members in
map order. -/
def ProcessSplitterByUid.collect_processes (s : ProcessSplitterByUid) : List Proc :=
  s.groups.flatMap (fun kv => kv.2.processes)

/-- Environment lookup environ.get(var) for a process. -/
def envLookup (p : Proc) (var : String) : Option String :=
  p.environ.lookup var

/-- Group name built by ProcessSplitterByEnvVariable::split
(format of var and optional value; formatting detail). -/
def envGroupName (var : String) (sid : Option String) : String :=
  match sid with
  | none => var ++ "=None"
  | some v => var ++ "=Some(" ++ v ++ ")"

/-- ProcessSplitterByEnvVariable state: the variable name and the map
from optional variable value to group. -/
structure ProcessSplitterByEnvVariable where
  var : String
  groups : List (Option String × ProcessGroup)
deriving DecidableEq, Repr

/-- ProcessSplitterByEnvVariable::new. -/
def ProcessSplitterByEnvVariable.new (var : String) : ProcessSplitterByEnvVariable :=
  ⟨var, []⟩

/-- The loop of ProcessSplitterByEnvVariable::split: for each distinct
value (including the absent case, the key none) drain the matching
processes into a fresh map entry. -/
def splitByEnvAux (var : String) :
    List (Option String) → List Proc → List (Option String × ProcessGroup)
  | [], _ => []
  | sid :: sids, processes =>
      (sid, ⟨envGroupName var sid,
             processes.filter (fun p => (envLookup p var = sid : Bool))⟩) ::
      splitByEnvAux var sids
        (processes.filter (fun p => !(envLookup p var = sid : Bool)))

/-- ProcessSplitterByEnvVariable::split: collect the distinct values of
the variable over the input list, then build a fresh map from them, and
replace the held map with it. -/
def ProcessSplitterByEnvVariable.split (s : ProcessSplitterByEnvVariable)
    (processes : List Proc) : ProcessSplitterByEnvVariable :=
  ⟨s.var, splitByEnvAux s.var
    ((processes.map (fun p => envLookup p s.var)).dedup) processes⟩

/-- ProcessSplitterByEnvVariable::collect_processes. -/
def ProcessSplitterByEnvVariable.collect_processes
    (s : ProcessSplitterByEnvVariable) : List Proc :=
  s.groups.flatMap (fun kv => kv.2.processes)

/-- The other_pfns loop of main: union of the group infos of every group
whose name differs from the given group's name. -/
def othersUnion (pageSize : Nat)
    (getMaps : Proc → Option (List (MemoryMapping × List PageData)))
    (groups : List ProcessGroup) (g1 : ProcessGroup) : Finset Nat :=
  (groups.filter (fun g2 => !(g1.name = g2.name : Bool))).foldl
    (fun acc g2 => acc ∪ (processes_group_info pageSize getMaps g2).pfns) ∅

/-- The rss figure of main (in bytes, before the MiB display scaling):
cardinality of the group's deduplicated frame set times the page size. -/
def groupRss (pageSize : Nat)
    (getMaps : Proc → Option (List (MemoryMapping × List PageData)))
    (g : ProcessGroup) : Nat :=
  (processes_group_info pageSize getMaps g).pfns.card * pageSize

/-- The frame set counted by the uss figure of main: the group's frames
minus the union of every other group's frames. -/
def ussSet (pageSize : Nat)
    (getMaps : Proc → Option (List (MemoryMapping × List PageData)))
    (groups : List ProcessGroup) (g : ProcessGroup) : Finset Nat :=
  (processes_group_info pageSize getMaps g).pfns \
    othersUnion pageSize getMaps groups g

/-- The uss figure of main (in bytes, before the MiB display scaling). -/
def groupUss (pageSize : Nat)
    (getMaps : Proc → Option (List (MemoryMapping × List PageData)))
    (groups : List ProcessGroup) (g : ProcessGroup) : Nat :=
  (ussSet pageSize getMaps groups g).card * pageSize

/-- A shared-memory segment as enumerated from the system (procfs Shm):
key, id and byte size. -/
structure ShmSeg where
  key : Int
  shmid : Nat
  size : Nat
deriving DecidableEq, Repr

/-- SmonInfo from the source: one discovered instance. -/
structure SmonInfo where
  pid : Int
  sid : String
  sgaSize : Nat
  sgaShm : ShmSeg
  sgaPfns : Finset Nat
deriving DecidableEq

/-- Captured output of the probe child: exit status success flag and
standard output decoded as text when it is valid (String::from_utf8). -/
structure ChildOutput where
  success : Bool
  stdoutUtf8 : Option String
deriving DecidableEq, Repr

/-- Outcome of get_smon_info: an Err return is skipped by the caller via
.ok(), while a panic (unwrap or expect failure) aborts the whole run. -/
inductive SmonOutcome
| ok (info : SmonInfo)
| err (msg : String)
| panic (msg : String)
deriving DecidableEq

/-- get_smon_info from the source, after the child has run: a failed
exit status or undecodable output returns Err; the trimmed output is
parsed as an integer with unwrap (panic on failure); then the first
enumerated segment whose size equals the parsed size is taken with
expect (panic when there is none), and its frames are resolved. -/
def get_smon_info (pid : Int) (sid : String) (output : ChildOutput)
    (parseSize : String → Option Nat) (shms : List ShmSeg)
    (shm2pfns : ShmSeg → Finset Nat) : SmonOutcome :=
  if !output.success then
    SmonOutcome.err ("cannot get info for " ++ sid)
  else
    match output.stdoutUtf8 with
    | none => SmonOutcome.err ("cannot read output for " ++ sid)
    | some s =>
        match parseSize s.trim with
        | none => SmonOutcome.panic "called Option.unwrap on a None value"
        | some sgaSize =>
            match shms.filter (fun shm => (shm.size = sgaSize : Bool)) with
            | [] => SmonOutcome.panic "shm for sga not found"
            | shm :: _ =>
                SmonOutcome.ok ⟨pid, sid, sgaSize, shm, shm2pfns shm⟩

/-- The instance-collection loop of main: filter_map over candidates
keeping Ok results; an Err outcome is skipped, but a panic outcome
aborts the whole run, modelled as the error case of Except. -/
def runDiscovery {α : Type} (probe : α → SmonOutcome) :
    List α → Except String (List SmonInfo)
  | [] => Except.ok []
  | c :: cs =>
      match probe c with
      | SmonOutcome.ok i => (runDiscovery probe cs).map (fun l => i :: l)
      | SmonOutcome.err _ => runDiscovery probe cs
      | SmonOutcome.panic m => Except.error m

/-- Outcome of the argument/uid dispatch at the top of main. -/
inductive MainOutcome
| probeOutput (printed : List String) (exitCode : Nat)
| abort (printedBefore : List String)
| report
deriving DecidableEq, Repr

/-- The dispatch at the top of main: with the hidden get_sga argument
the program asserts it is not root, prints the sga size and exits 0;
without it the program asserts it is root and continues reporting. The
assertions fire before anything is printed. -/
def mainDispatch (args : List String) (uid : Nat) (sgaSize : Nat) : MainOutcome :=
  if args.get? 1 = some "get_sga" then
    if uid = 0 then MainOutcome.abort []
    else MainOutcome.probeOutput [toString sgaSize] 0
  else
    if uid ≠ 0 then MainOutcome.abort []
    else MainOutcome.report

/-- The process list built by main: all processes except the program's
own pid. -/
def reportedProcesses (allProcs : List Proc) (myPid : Int) : List Proc :=
  allProcs.filter (fun p => !(p.pid = myPid : Bool))

/-- Union of a list of finite sets (the repeated extend of the source's
aggregation loops, characterised). -/
def listUnion {α : Type} [DecidableEq α] : List (Finset α) → Finset α
  | [] => ∅
  | s :: l => s ∪ listUnion l

theorem mem_listUnion {α : Type} [DecidableEq α] {x : α} {l : List (Finset α)} :
    x ∈ listUnion l ↔ ∃ s ∈ l, x ∈ s := by
  induction l with
  | nil => simp [listUnion]
  | cons s l ih => simp [listUnion, ih]

theorem disjoint_listUnion {α : Type} [DecidableEq α] {s : Finset α} {l : List (Finset α)} :
    Disjoint s (listUnion l) ↔ ∀ t ∈ l, Disjoint s t := by
  induction l with
  | nil => simp [listUnion]
  | cons t l ih => simp [listUnion, Finset.disjoint_union_right, ih, and_comm]

theorem listUnion_perm {α : Type} [DecidableEq α] {l₁ l₂ : List (Finset α)}
    (h : l₁.Perm l₂) : listUnion l₁ = listUnion l₂ := by
  ext x
  simp only [mem_listUnion]
  constructor
  · rintro ⟨s, hs, hx⟩
    exact ⟨s, h.mem_iff.mp hs, hx⟩
  · rintro ⟨s, hs, hx⟩
    exact ⟨s, h.mem_iff.mpr hs, hx⟩

theorem foldl_groupStep (infos : List ProcessInfo) (acc : ProcessGroupInfo) :
    infos.foldl groupStep acc =
      ⟨acc.pids ++ infos.map ProcessInfo.pid,
       acc.pfns ∪ listUnion (infos.map ProcessInfo.pfns),
       acc.swapPages ∪ listUnion (infos.map ProcessInfo.swapPages),
       acc.pte + (infos.map ProcessInfo.pte).sum,
       acc.fds + (infos.map ProcessInfo.fds).sum⟩ := by
  induction infos generalizing acc with
  | nil => simp [listUnion]
  | cons i infos ih =>
      rw [List.foldl_cons, ih]
      simp [groupStep, List.append_assoc, Finset.union_assoc, Nat.add_assoc, listUnion]

theorem groupInfoOfInfos_pids (infos : List ProcessInfo) :
    (groupInfoOfInfos infos).pids = infos.map ProcessInfo.pid := by
  simp [groupInfoOfInfos, foldl_groupStep]

theorem groupInfoOfInfos_pfns (infos : List ProcessInfo) :
    (groupInfoOfInfos infos).pfns = listUnion (infos.map ProcessInfo.pfns) := by
  simp [groupInfoOfInfos, foldl_groupStep]

theorem groupInfoOfInfos_swapPages (infos : List ProcessInfo) :
    (groupInfoOfInfos infos).swapPages = listUnion (infos.map ProcessInfo.swapPages) := by
  simp [groupInfoOfInfos, foldl_groupStep]

theorem groupInfoOfInfos_pte (infos : List ProcessInfo) :
    (groupInfoOfInfos infos).pte = (infos.map ProcessInfo.pte).sum := by
  simp [groupInfoOfInfos, foldl_groupStep]

theorem groupInfoOfInfos_fds (infos : List ProcessInfo) :
    (groupInfoOfInfos infos).fds = (infos.map ProcessInfo.fds).sum := by
  simp [groupInfoOfInfos, foldl_groupStep]

theorem foldl_union_eq {α : Type} (f : α → Finset Nat) (l : List α) (init : Finset Nat) :
    l.foldl (fun acc x => acc ∪ f x) init = init ∪ listUnion (l.map f) := by
  induction l generalizing init with
  | nil => simp [listUnion]
  | cons x l ih => simp [listUnion, ih, Finset.union_assoc]

/-- The frame number carried by a memory page, none for a swap page. -/
def pagePfn : PageData → Option Nat
  | PageData.memoryPage pfn => some pfn
  | PageData.swapPage _ _ => none

/-- The (type, offset) pair carried by a swap page. -/
def pageSwap : PageData → Option (Nat × Nat)
  | PageData.memoryPage _ => none
  | PageData.swapPage swapType offset => some (swapType, offset)

/-- Whether a page is a resident page with a nonzero frame number. -/
def pageIsNonzeroResident : PageData → Bool
  | PageData.memoryPage pfn => !(pfn = 0 : Bool)
  | PageData.swapPage _ _ => false

theorem foldl_processPage (pageSize : Nat) (pages : List PageData) (acc : Accum) :
    pages.foldl (processPage pageSize) acc =
      ⟨acc.pfns ∪ (pages.filterMap pagePfn).toFinset,
       acc.swapPages ∪ (pages.filterMap pageSwap).toFinset,
       acc.rss + pageSize * pages.countP pageIsNonzeroResident,
       acc.vsz⟩ := by
  induction pages generalizing acc with
  | nil => simp
  | cons pg pages ih =>
      rw [List.foldl_cons, ih]
      cases pg with
      | memoryPage pfn =>
          by_cases h : pfn = 0 <;>
            simp [processPage, pagePfn, pageSwap, pageIsNonzeroResident, h,
              List.countP_cons, Finset.union_insert, Nat.mul_add]
          omega
      | swapPage swapType offset =>
          simp [processPage, pagePfn, pageSwap, pageIsNonzeroResident,
            List.countP_cons, Finset.union_insert]

theorem foldl_processMapping (pageSize : Nat)
    (maps : List (MemoryMapping × List PageData)) (acc : Accum) :
    maps.foldl (processMapping pageSize) acc =
      ⟨acc.pfns ∪ ((maps.flatMap Prod.snd).filterMap pagePfn).toFinset,
       acc.swapPages ∪ ((maps.flatMap Prod.snd).filterMap pageSwap).toFinset,
       acc.rss + pageSize * (maps.flatMap Prod.snd).countP pageIsNonzeroResident,
       acc.vsz + (maps.map (fun mm => mm.1.addrEnd - mm.1.addrStart)).sum⟩ := by
  induction maps generalizing acc with
  | nil => simp
  | cons mm maps ih =>
      rw [List.foldl_cons, processMapping, foldl_processPage, ih]
      simp [List.filterMap_append, List.countP_append, List.toFinset_append,
        Finset.union_assoc, Nat.mul_add, Nat.add_assoc]

theorem btreeInsert_mem {k : Nat} {v : ProcessGroup} {groups : List (Nat × ProcessGroup)}
    {kv : Nat × ProcessGroup} (h : kv ∈ btreeInsert k v groups) :
    kv = (k, v) ∨ kv ∈ groups := by
  induction groups with
  | nil => simpa [btreeInsert] using h
  | cons hd t ih =>
      obtain ⟨k₁, v₁⟩ := hd
      rw [btreeInsert] at h
      split_ifs at h with h1 h2
      · rcases List.mem_cons.mp h with h | h
        · exact Or.inl h
        · exact Or.inr h
      · rcases List.mem_cons.mp h with h | h
        · exact Or.inl h
        · exact Or.inr (List.mem_cons_of_mem _ h)
      · rcases List.mem_cons.mp h with h | h
        · exact Or.inr (h ▸ List.mem_cons_self _ _)
        · rcases ih h with h | h
          · exact Or.inl h
          · exact Or.inr (List.mem_cons_of_mem _ h)

theorem btreeInsert_mem_of_ne {k : Nat} {v : ProcessGroup} {groups : List (Nat × ProcessGroup)}
    {kv : Nat × ProcessGroup} (h : kv ∈ groups) (hne : kv.1 ≠ k) :
    kv ∈ btreeInsert k v groups := by
  induction groups with
  | nil => cases h
  | cons hd t ih =>
      obtain ⟨k₁, v₁⟩ := hd
      rw [btreeInsert]
      split_ifs with h1 h2
      · exact List.mem_cons_of_mem _ h
      · rcases List.mem_cons.mp h with h | h
        · exact (hne (by simp [h, ← h2])).elim
        · exact List.mem_cons_of_mem _ h
      · rcases List.mem_cons.mp h with h | h
        · exact h ▸ List.mem_cons_self _ _
        · exact List.mem_cons_of_mem _ (ih h)

theorem btreeInsert_flatMap_perm (k : Nat) (v : ProcessGroup)
    (groups : List (Nat × ProcessGroup)) (h : ∀ kv ∈ groups, kv.1 ≠ k) :
    ((btreeInsert k v groups).flatMap (fun kv => kv.2.processes)).Perm
      (v.processes ++ groups.flatMap (fun kv => kv.2.processes)) := by
  induction groups with
  | nil => simp [btreeInsert]
  | cons hd t ih =>
      obtain ⟨k₁, v₁⟩ := hd
      rw [btreeInsert]
      split_ifs with h1 h2
      · simp
      · exact absurd h2.symm (h (k₁, v₁) (List.mem_cons_self _ _))
      · have ht : ∀ kv ∈ t, kv.1 ≠ k := fun kv hkv => h kv (List.mem_cons_of_mem _ hkv)
        simp only [List.flatMap_cons]
        refine ((ih ht).append_left v₁.processes).trans ?_
        rw [← List.append_assoc, ← List.append_assoc]
        exact List.perm_append_comm.append_right _

theorem splitByUidAux_collect_perm (username : Nat → String) (keys : List Nat)
    (ps : List Proc) (groups : List (Nat × ProcessGroup))
    (hnd : keys.Nodup) (hcov : ∀ p ∈ ps, p.uid ∈ keys)
    (hfresh : ∀ kv ∈ groups, kv.1 ∉ keys) :
    ((splitByUidAux username keys ps groups).flatMap (fun kv => kv.2.processes)).Perm
      (ps ++ groups.flatMap (fun kv => kv.2.processes)) := by
  induction keys generalizing ps groups with
  | nil =>
      have hps : ps = [] := by
        cases ps with
        | nil => rfl
        | cons p t => exact absurd (hcov p (List.mem_cons_self _ _)) (by simp)
      subst hps
      simp [splitByUidAux]
  | cons k ks ih =>
      rw [splitByUidAux]
      have hnd2 := List.nodup_cons.mp hnd
      have hcov2 : ∀ p ∈ ps.filter (fun p => !(p.uid = k : Bool)), p.uid ∈ ks := by
        intro p hp
        have hm := List.mem_filter.mp hp
        have huid : p.uid ≠ k := by simpa using hm.2
        rcases List.mem_cons.mp (hcov p hm.1) with h | h
        · exact absurd h huid
        · exact h
      have hfresh2 : ∀ kv ∈ btreeInsert k
          ⟨"user " ++ username k, ps.filter (fun p => (p.uid = k : Bool))⟩ groups,
          kv.1 ∉ ks := by
        intro kv hkv
        rcases btreeInsert_mem hkv with h | h
        · rw [h]
          exact hnd2.1
        · intro hc
          exact hfresh kv h (List.mem_cons_of_mem _ hc)
      refine (ih _ _ hnd2.2 hcov2 hfresh2).trans ?_
      refine (List.Perm.append_left _ (btreeInsert_flatMap_perm _ _ _
        (fun kv hkv h => hfresh kv hkv (h ▸ List.mem_cons_self _ _)))).trans ?_
      rw [← List.append_assoc]
      refine List.Perm.append_right _ ?_
      refine List.perm_append_comm.trans ?_
      exact List.filter_append_perm _ ps

theorem splitByEnvAux_collect_perm (var : String) (keys : List (Option String))
    (ps : List Proc) (hcov : ∀ p ∈ ps, envLookup p var ∈ keys) :
    ((splitByEnvAux var keys ps).flatMap (fun kv => kv.2.processes)).Perm ps := by
  induction keys generalizing ps with
  | nil =>
      have hps : ps = [] := by
        cases ps with
        | nil => rfl
        | cons p t => exact absurd (hcov p (List.mem_cons_self _ _)) (by simp)
      subst hps
      simp [splitByEnvAux]
  | cons k ks ih =>
      rw [splitByEnvAux]
      simp only [List.flatMap_cons]
      have hcov2 : ∀ p ∈ ps.filter (fun p => !(envLookup p var = k : Bool)),
          envLookup p var ∈ ks := by
        intro p hp
        have hm := List.mem_filter.mp hp
        have hv : envLookup p var ≠ k := by simpa using hm.2
        rcases List.mem_cons.mp (hcov p hm.1) with h | h
        · exact absurd h hv
        · exact h
      refine (List.Perm.append_left _ (ih _ hcov2)).trans ?_
      exact List.filter_append_perm _ ps

theorem splitByEnvAux_group_content (var : String) (keys : List (Option String))
    (ps : List Proc) (sid : Option String) (hnd : keys.Nodup) (hmem : sid ∈ keys) :
    (sid, (⟨envGroupName var sid,
        ps.filter (fun p => (envLookup p var = sid : Bool))⟩ : ProcessGroup)) ∈
      splitByEnvAux var keys ps := by
  induction keys generalizing ps with
  | nil => cases hmem
  | cons k ks ih =>
      rw [splitByEnvAux]
      rcases List.mem_cons.mp hmem with h | h
      · subst h
        exact List.mem_cons_self _ _
      · have hnd2 := List.nodup_cons.mp hnd
        have hk : sid ≠ k := by
          intro hc
          exact hnd2.1 (hc ▸ h)
        refine List.mem_cons_of_mem _ ?_
        have hfe : (ps.filter (fun p => !(envLookup p var = k : Bool))).filter
            (fun p => (envLookup p var = sid : Bool)) =
            ps.filter (fun p => (envLookup p var = sid : Bool)) := by
          rw [List.filter_filter]
          refine List.filter_congr ?_
          intro p hp
          by_cases hv : envLookup p var = sid
          · have : envLookup p var ≠ k := by rw [hv]; exact hk
            simp [hv, this, hk]
          · simp [hv]
        rw [← hfe]
        exact ih _ hnd2.2 h

theorem splitByEnvAux_mem_processes {var : String} {keys : List (Option String)}
    {ps : List Proc} {kv : Option String × ProcessGroup} {p : Proc}
    (hkv : kv ∈ splitByEnvAux var keys ps) (hp : p ∈ kv.2.processes) : p ∈ ps := by
  induction keys generalizing ps with
  | nil => cases hkv
  | cons k ks ih =>
      rw [splitByEnvAux] at hkv
      rcases List.mem_cons.mp hkv with h | h
      · subst h
        exact (List.mem_filter.mp hp).1
      · exact (List.mem_filter.mp (ih h)).1

theorem splitByUidAux_mem_processes {username : Nat → String} {keys : List Nat}
    {ps : List Proc} {groups : List (Nat × ProcessGroup)}
    {kv : Nat × ProcessGroup} {p : Proc}
    (hkv : kv ∈ splitByUidAux username keys ps groups) (hp : p ∈ kv.2.processes) :
    p ∈ ps ∨ ∃ kv₀ ∈ groups, p ∈ kv₀.2.processes := by
  induction keys generalizing ps groups with
  | nil =>
      rw [splitByUidAux] at hkv
      exact Or.inr ⟨kv, hkv, hp⟩
  | cons k ks ih =>
      rw [splitByUidAux] at hkv
      rcases ih hkv with h | ⟨kv₀, hkv₀, hp₀⟩
      · exact Or.inl ((List.mem_filter.mp h).1)
      · rcases btreeInsert_mem hkv₀ with h | h
        · subst h
          exact Or.inl ((List.mem_filter.mp hp₀).1)
        · exact Or.inr ⟨kv₀, h, hp₀⟩

theorem splitByUidAux_preserved {username : Nat → String} {keys : List Nat}
    {ps : List Proc} {groups : List (Nat × ProcessGroup)} {kv : Nat × ProcessGroup}
    (hkv : kv ∈ groups) (hni : kv.1 ∉ keys) :
    kv ∈ splitByUidAux username keys ps groups := by
  induction keys generalizing ps groups with
  | nil => exact hkv
  | cons k ks ih =>
      rw [splitByUidAux]
      refine ih (btreeInsert_mem_of_ne hkv ?_) ?_
      · intro hc
        exact hni (hc ▸ List.mem_cons_self _ _)
      · intro hc
        exact hni (List.mem_cons_of_mem _ hc)

theorem listUnion_card_le (l : List (Finset Nat)) :
    (listUnion l).card ≤ (l.map Finset.card).sum ∧
    ((listUnion l).card = (l.map Finset.card).sum ↔
      l.Pairwise (fun s t => Disjoint s t)) := by
  induction l with
  | nil => simp [listUnion]
  | cons s l ih =>
      obtain ⟨ihle, ihiff⟩ := ih
      have hcard := Finset.card_union_add_card_inter s (listUnion l)
      have hinter : (s ∩ listUnion l).card = 0 ↔ ∀ t ∈ l, Disjoint s t := by
        rw [Finset.card_eq_zero, ← Finset.disjoint_iff_inter_eq_empty]
        exact disjoint_listUnion
      constructor
      · simp only [listUnion, List.map_cons, List.sum_cons]
        omega
      · simp only [listUnion, List.map_cons, List.sum_cons, List.pairwise_cons]
        rw [← ihiff, ← hinter]
        omega

/-- C5: for a group footprint built by the aggregation fold from member
footprints, the cardinality of the group's resident-frame set is at most
the sum of the members' resident-frame-set cardinalities, with equality
exactly when the members' frame sets are pairwise disjoint. -/
theorem C5_group_pfns_card (infos : List ProcessInfo) :
    (groupInfoOfInfos infos).pfns.card ≤
      ((infos.map ProcessInfo.pfns).map Finset.card).sum ∧
    ((groupInfoOfInfos infos).pfns.card =
        ((infos.map ProcessInfo.pfns).map Finset.card).sum ↔
      (infos.map ProcessInfo.pfns).Pairwise (fun s t => Disjoint s t)) := by
  rw [groupInfoOfInfos_pfns]
  exact listUnion_card_le _

/-- The resident-frame set of a list of memory maps as the specification
describes it (spec-side definition for comparison with get_info): the
frame identity of every resident page, the zero identity included. -/
def specResidentFrames (maps : List (MemoryMapping × List PageData)) : Finset Nat :=
  ((maps.flatMap Prod.snd).filterMap pagePfn).toFinset

/-- The resident byte count as the specification describes it (spec-side
definition): one page-size unit for each resident page whose frame
identity is nonzero. -/
def specResidentBytes (pageSize : Nat)
    (maps : List (MemoryMapping × List PageData)) : Nat :=
  pageSize * (maps.flatMap Prod.snd).countP pageIsNonzeroResident

/-- C6: whenever get_info yields a footprint, the footprint's frame set
holds the frame identity of every resident page unconditionally, the
zero identity included, while resident_bytes counts one page-size unit
only for the resident pages whose frame identity is nonzero. -/
theorem C6_resident_accounting (pageSize : Nat) (p : Proc)
    (maps : List (MemoryMapping × List PageData)) (info : ProcessInfo)
    (h : get_info pageSize p maps = some info) :
    info.pfns = specResidentFrames maps ∧
    info.rss = specResidentBytes pageSize maps := by
  by_cases hc : p.cmdline = []
  · rw [get_info, if_pos hc] at h
    cases h
  · rw [get_info, if_neg hc] at h
    simp only [foldl_processMapping, Option.some.injEq] at h
    subst h
    constructor
    · simp [specResidentFrames]
    · simp [specResidentBytes]

/-- Concrete process used by witnesses: pid 7, nonempty command line. -/
def procW : Proc := ⟨7, 100, ["x"], [], 3, 4⟩

/-- Concrete memory maps used by witnesses: one mapping holding a
zero-pfn resident page and a resident page with pfn 5, one mapping
holding a swap page. -/
def wMaps : List (MemoryMapping × List PageData) :=
  [(⟨0, 8192⟩, [PageData.memoryPage 0, PageData.memoryPage 5]),
   (⟨8192, 12288⟩, [PageData.swapPage 1 2])]

/-- The footprint get_info computes for procW on wMaps. -/
def wInfo : ProcessInfo := ⟨7, {5, 0}, {(1, 2)}, 4096, 12288, 3, 4⟩

theorem C6_resident_accounting_witness :
    wInfo.pfns = specResidentFrames wMaps ∧
    wInfo.rss = specResidentBytes 4096 wMaps :=
  C6_resident_accounting 4096 procW wMaps wInfo (by rfl)

/-- C7: get_info yields a footprint exactly for the processes with a
nonempty command line, and a process with zero mappings yields a
footprint with empty frame and swap sets and zero resident and mapped
bytes rather than an error. -/
theorem C7_defined_iff (pageSize : Nat) (p : Proc)
    (maps : List (MemoryMapping × List PageData)) :
    ((get_info pageSize p maps).isSome ↔ p.cmdline ≠ []) ∧
    (p.cmdline ≠ [] →
      get_info pageSize p [] = some ⟨p.pid, ∅, ∅, 0, 0, p.vmpte, p.fdCount⟩) := by
  constructor
  · by_cases hc : p.cmdline = [] <;> simp [get_info, hc]
  · intro hc
    simp [get_info, hc]

theorem C7_defined_iff_witness :
    (get_info 4096 procW wMaps).isSome ∧
    get_info 4096 procW [] = some ⟨7, ∅, ∅, 0, 0, 3, 4⟩ :=
  ⟨(C7_defined_iff 4096 procW wMaps).1.mpr (by decide),
   (C7_defined_iff 4096 procW []).2 (by decide)⟩

/-- C2: for every input process list, splitting with a fresh splitter and
then reclaiming the members is a permutation of the input, both for the
by-uid strategy and for the by-environment-variable strategy; a process
missing the variable lands in the group keyed by the absent value. -/
theorem C2_split_collect_permutation (username : Nat → String) (var : String)
    (ps : List Proc) :
    ((ProcessSplitterByUid.new.split username ps).collect_processes).Perm ps ∧
    (((ProcessSplitterByEnvVariable.new var).split ps).collect_processes).Perm ps ∧
    (∀ p ∈ ps, envLookup p var = none →
      ∃ g : ProcessGroup,
        (none, g) ∈ ((ProcessSplitterByEnvVariable.new var).split ps).groups ∧
        g.processes = ps.filter (fun q => (envLookup q var = none : Bool)) ∧
        p ∈ g.processes) := by
  refine ⟨?_, ?_, ?_⟩
  · have h := splitByUidAux_collect_perm username ((ps.map Proc.uid).dedup) ps []
      (List.nodup_dedup _)
      (fun p hp => List.mem_dedup.mpr (List.mem_map_of_mem _ hp))
      (fun kv hkv => by cases hkv)
    simpa [ProcessSplitterByUid.new, ProcessSplitterByUid.split,
      ProcessSplitterByUid.collect_processes] using h
  · have h := splitByEnvAux_collect_perm var
      ((ps.map (fun p => envLookup p var)).dedup) ps
      (fun p hp => List.mem_dedup.mpr (List.mem_map_of_mem _ hp))
    simpa [ProcessSplitterByEnvVariable.new, ProcessSplitterByEnvVariable.split,
      ProcessSplitterByEnvVariable.collect_processes] using h
  · intro p hp hnone
    refine ⟨⟨envGroupName var none,
      ps.filter (fun q => (envLookup q var = none : Bool))⟩, ?_, rfl, ?_⟩
    · exact splitByEnvAux_group_content var _ ps none (List.nodup_dedup _)
        (List.mem_dedup.mpr (hnone ▸ List.mem_map_of_mem _ hp))
    · exact List.mem_filter.mpr ⟨hp, by simp [hnone]⟩

/-- Concrete process with no environment variables, uid 5, pid 3. -/
def procNoVar : Proc := ⟨3, 5, ["y"], [], 0, 0⟩

theorem C2_split_collect_permutation_witness :
    ((ProcessSplitterByUid.new.split (fun _ => "u") [procNoVar]).collect_processes).Perm
      [procNoVar] ∧
    ∃ g : ProcessGroup,
      (none, g) ∈ ((ProcessSplitterByEnvVariable.new "V").split [procNoVar]).groups ∧
      g.processes = [procNoVar].filter (fun q => (envLookup q "V" = none : Bool)) ∧
      procNoVar ∈ g.processes :=
  ⟨(C2_split_collect_permutation (fun _ => "u") "V" [procNoVar]).1,
   (C2_split_collect_permutation (fun _ => "u") "V" [procNoVar]).2.2 procNoVar
     (by decide) (by decide)⟩

/-- Concrete process: pid 1, uid 0, nonempty command line. -/
def procA : Proc := ⟨1, 0, ["a"], [], 0, 0⟩

/-- Concrete process: pid 2, uid 0, nonempty command line. -/
def procB : Proc := ⟨2, 0, ["b"], [], 0, 0⟩

/-- A group holding procA then procB. -/
def groupAB : ProcessGroup := ⟨"g", [procA, procB]⟩

/-- The same group with its members permuted. -/
def groupBA : ProcessGroup := ⟨"g", [procB, procA]⟩

/-- C9 counterexample: permuting the two members of a group swaps the
collected pid sequence of the aggregate, so the aggregated records are
not identical as the claim states. -/
theorem C9_counterexample :
    groupAB.processes.Perm groupBA.processes ∧
    (processes_group_info 4096 (fun _ => some []) groupAB).pids = [1, 2] ∧
    (processes_group_info 4096 (fun _ => some []) groupBA).pids = [2, 1] ∧
    processes_group_info 4096 (fun _ => some []) groupAB ≠
      processes_group_info 4096 (fun _ => some []) groupBA := by
  refine ⟨List.Perm.swap _ _ _, rfl, rfl, fun h => ?_⟩
  have h2 : ([1, 2] : List Int) = [2, 1] := congrArg ProcessGroupInfo.pids h
  exact absurd h2 (by decide)

/-- C9 amended: permuting a group's member list leaves the aggregated
frame set, swap set, page-table total and descriptor total identical,
while the collected member-identity sequence is permuted accordingly
(equal as a multiset, not as a sequence). -/
theorem C9_amended_perm_invariance (pageSize : Nat)
    (getMaps : Proc → Option (List (MemoryMapping × List PageData)))
    (g g' : ProcessGroup) (h : g.processes.Perm g'.processes) :
    (processes_group_info pageSize getMaps g).pfns =
      (processes_group_info pageSize getMaps g').pfns ∧
    (processes_group_info pageSize getMaps g).swapPages =
      (processes_group_info pageSize getMaps g').swapPages ∧
    (processes_group_info pageSize getMaps g).pte =
      (processes_group_info pageSize getMaps g').pte ∧
    (processes_group_info pageSize getMaps g).fds =
      (processes_group_info pageSize getMaps g').fds ∧
    ((processes_group_info pageSize getMaps g).pids).Perm
      (processes_group_info pageSize getMaps g').pids := by
  have hinfos : (extractInfos pageSize getMaps g.processes).Perm
      (extractInfos pageSize getMaps g'.processes) := by
    unfold extractInfos
    exact (h.filterMap _).filterMap _
  unfold processes_group_info
  refine ⟨?_, ?_, ?_, ?_, ?_⟩
  · rw [groupInfoOfInfos_pfns, groupInfoOfInfos_pfns]
    exact listUnion_perm (hinfos.map _)
  · rw [groupInfoOfInfos_swapPages, groupInfoOfInfos_swapPages]
    exact listUnion_perm (hinfos.map _)
  · rw [groupInfoOfInfos_pte, groupInfoOfInfos_pte]
    exact (hinfos.map _).sum_eq
  · rw [groupInfoOfInfos_fds, groupInfoOfInfos_fds]
    exact (hinfos.map _).sum_eq
  · rw [groupInfoOfInfos_pids, groupInfoOfInfos_pids]
    exact hinfos.map _

theorem C9_amended_perm_invariance_witness :
    (processes_group_info 4096 (fun _ => some []) groupAB).pfns =
      (processes_group_info 4096 (fun _ => some []) groupBA).pfns ∧
    (processes_group_info 4096 (fun _ => some []) groupAB).swapPages =
      (processes_group_info 4096 (fun _ => some []) groupBA).swapPages ∧
    (processes_group_info 4096 (fun _ => some []) groupAB).pte =
      (processes_group_info 4096 (fun _ => some []) groupBA).pte ∧
    (processes_group_info 4096 (fun _ => some []) groupAB).fds =
      (processes_group_info 4096 (fun _ => some []) groupBA).fds ∧
    ((processes_group_info 4096 (fun _ => some []) groupAB).pids).Perm
      (processes_group_info 4096 (fun _ => some []) groupBA).pids :=
  C9_amended_perm_invariance 4096 (fun _ => some []) groupAB groupBA
    (List.Perm.swap _ _ _)

/-- Concrete process with uid 1. -/
def procU1 : Proc := ⟨1, 1, ["a"], [], 0, 0⟩

/-- Concrete process with uid 2. -/
def procU2 : Proc := ⟨2, 2, ["b"], [], 0, 0⟩

/-- C3 counterexample: after re-splitting the by-uid splitter with a
fresh list holding only a uid-2 process, the group for uid 1 built by
the first call is still present, so the prior state is not fully
replaced and the groups differ from those of a fresh split. -/
theorem C3_counterexample :
    (1, (⟨"user x", [procU1]⟩ : ProcessGroup)) ∈
      ((ProcessSplitterByUid.new.split (fun _ => "x") [procU1]).split
        (fun _ => "x") [procU2]).groups ∧
    ((ProcessSplitterByUid.new.split (fun _ => "x") [procU1]).split
        (fun _ => "x") [procU2]).groups ≠
      (ProcessSplitterByUid.new.split (fun _ => "x") [procU2]).groups := by
  constructor
  · decide
  · decide

theorem btreeInsert_self_mem (k : Nat) (v : ProcessGroup)
    (groups : List (Nat × ProcessGroup)) : (k, v) ∈ btreeInsert k v groups := by
  induction groups with
  | nil => simp [btreeInsert]
  | cons hd t ih =>
      obtain ⟨k₁, v₁⟩ := hd
      rw [btreeInsert]
      split_ifs with h1 h2
      · exact List.mem_cons_self _ _
      · exact List.mem_cons_self _ _
      · exact List.mem_cons_of_mem _ ih

theorem btreeInsert_sorted {k : Nat} {v : ProcessGroup}
    {groups : List (Nat × ProcessGroup)}
    (h : groups.Pairwise (fun a b => a.1 < b.1)) :
    (btreeInsert k v groups).Pairwise (fun a b => a.1 < b.1) := by
  induction groups with
  | nil => simp [btreeInsert]
  | cons hd t ih =>
      obtain ⟨k₁, v₁⟩ := hd
      rw [List.pairwise_cons] at h
      obtain ⟨hlt, hsorted⟩ := h
      rw [btreeInsert]
      split_ifs with h1 h2
      · refine List.Pairwise.cons ?_ (List.Pairwise.cons hlt hsorted)
        intro x hx
        rcases List.mem_cons.mp hx with hx | hx
        · rw [hx]
          exact h1
        · exact lt_trans h1 (hlt x hx)
      · refine List.Pairwise.cons ?_ hsorted
        intro x hx
        have hx2 : k₁ < x.1 := hlt x hx
        show k < x.1
        omega
      · have hk : k₁ < k := by omega
        refine List.Pairwise.cons ?_ (ih hsorted)
        intro x hx
        rcases btreeInsert_mem hx with hx | hx
        · rw [hx]
          exact hk
        · exact hlt x hx

theorem btreeInsert_mem_sorted {k : Nat} {v : ProcessGroup}
    {groups : List (Nat × ProcessGroup)} {kv : Nat × ProcessGroup}
    (hs : groups.Pairwise (fun a b => a.1 < b.1))
    (h : kv ∈ btreeInsert k v groups) :
    kv = (k, v) ∨ (kv ∈ groups ∧ kv.1 ≠ k) := by
  induction groups with
  | nil =>
      rw [btreeInsert] at h
      rcases List.mem_cons.mp h with h | h
      · exact Or.inl h
      · cases h
  | cons hd t ih =>
      obtain ⟨k₁, v₁⟩ := hd
      rw [List.pairwise_cons] at hs
      obtain ⟨hlt, hsorted⟩ := hs
      rw [btreeInsert] at h
      split_ifs at h with h1 h2
      · rcases List.mem_cons.mp h with h | h
        · exact Or.inl h
        · refine Or.inr ⟨h, ?_⟩
          rcases List.mem_cons.mp h with h3 | h3
          · have h4 : kv.1 = k₁ := by rw [h3]
            omega
          · have h4 : k₁ < kv.1 := hlt kv h3
            omega
      · rcases List.mem_cons.mp h with h | h
        · exact Or.inl h
        · refine Or.inr ⟨List.mem_cons_of_mem _ h, ?_⟩
          have h4 : k₁ < kv.1 := hlt kv h
          omega
      · rcases List.mem_cons.mp h with h | h
        · refine Or.inr ⟨h ▸ List.mem_cons_self _ _, ?_⟩
          have h4 : kv.1 = k₁ := by rw [h]
          omega
        · rcases ih hsorted h with h3 | ⟨h3, h4⟩
          · exact Or.inl h3
          · exact Or.inr ⟨List.mem_cons_of_mem _ h3, h4⟩

theorem splitByUidAux_mem_or_key {username : Nat → String} {keys : List Nat}
    {ps : List Proc} {groups : List (Nat × ProcessGroup)}
    {kv : Nat × ProcessGroup} (h : kv ∈ splitByUidAux username keys ps groups) :
    kv ∈ groups ∨ kv.1 ∈ keys := by
  induction keys generalizing ps groups with
  | nil => exact Or.inl h
  | cons k ks ih =>
      rw [splitByUidAux] at h
      rcases ih h with h2 | h2
      · rcases btreeInsert_mem h2 with h3 | h3
        · right
          rw [h3]
          exact List.mem_cons_self _ _
        · exact Or.inl h3
      · exact Or.inr (List.mem_cons_of_mem _ h2)

theorem splitByUidAux_rebuild (username : Nat → String) (keys : List Nat)
    (ps : List Proc) (groups : List (Nat × ProcessGroup)) (k : Nat)
    (hnd : keys.Nodup) (hsort : groups.Pairwise (fun a b => a.1 < b.1))
    (hk : k ∈ keys) :
    ((k, (⟨"user " ++ username k,
        ps.filter (fun p => (p.uid = k : Bool))⟩ : ProcessGroup)) ∈
      splitByUidAux username keys ps groups) ∧
    ∀ kv ∈ splitByUidAux username keys ps groups, kv.1 = k →
      kv = (k, ⟨"user " ++ username k,
        ps.filter (fun p => (p.uid = k : Bool))⟩) := by
  induction keys generalizing ps groups with
  | nil => cases hk
  | cons k₀ ks ih =>
      have hnd2 := List.nodup_cons.mp hnd
      rcases List.mem_cons.mp hk with hke | hke
      · subst hke
        rw [splitByUidAux]
        constructor
        · exact splitByUidAux_preserved (btreeInsert_self_mem _ _ _) hnd2.1
        · intro kv hkv hkv1
          rcases splitByUidAux_mem_or_key hkv with h2 | h2
          · rcases btreeInsert_mem_sorted hsort h2 with h3 | ⟨h3, h4⟩
            · exact h3
            · exact absurd hkv1 h4
          · exact absurd (hkv1 ▸ h2) hnd2.1
      · have hkne : k ≠ k₀ := fun hc => hnd2.1 (hc ▸ hke)
        rw [splitByUidAux]
        have hfe : (ps.filter (fun p => !(p.uid = k₀ : Bool))).filter
            (fun p => (p.uid = k : Bool)) =
            ps.filter (fun p => (p.uid = k : Bool)) := by
          rw [List.filter_filter]
          refine List.filter_congr ?_
          intro p hp
          by_cases hu : p.uid = k
          · have hz : p.uid ≠ k₀ := by rw [hu]; exact hkne
            simp [hu, hz, hkne]
          · simp [hu]
        have hrec := ih (ps.filter (fun p => !(p.uid = k₀ : Bool)))
          (btreeInsert k₀
            ⟨"user " ++ username k₀, ps.filter (fun p => (p.uid = k₀ : Bool))⟩
            groups)
          hnd2.2 (btreeInsert_sorted hsort) hke
        rw [hfe] at hrec
        exact hrec

/-- C3 amended: the by-environment-variable splitter fully replaces its
grouping state on every split (the result never depends on the held
groups); the by-uid splitter merges into its held, key-sorted map: for
every uid present in the fresh list the group under that key is rebuilt
purely from the fresh list (it is present and is the only entry under
that key), while a prior group whose uid key is absent from the fresh
list survives the second split. -/
theorem C3_amended_replacement (username : Nat → String)
    (s : ProcessSplitterByEnvVariable) (ps : List Proc)
    (t : ProcessSplitterByUid) (qs : List Proc) :
    ((s.split ps).groups =
      ((ProcessSplitterByEnvVariable.new s.var).split ps).groups) ∧
    (t.groups.Pairwise (fun a b => a.1 < b.1) →
      ∀ k ∈ qs.map Proc.uid,
        ((k, (⟨"user " ++ username k,
            qs.filter (fun p => (p.uid = k : Bool))⟩ : ProcessGroup)) ∈
          (t.split username qs).groups) ∧
        ∀ kv ∈ (t.split username qs).groups, kv.1 = k →
          kv = (k, ⟨"user " ++ username k,
            qs.filter (fun p => (p.uid = k : Bool))⟩)) ∧
    (∀ kv ∈ t.groups, kv.1 ∉ qs.map Proc.uid →
      kv ∈ (t.split username qs).groups) := by
  refine ⟨rfl, ?_, ?_⟩
  · intro hsort k hk
    exact splitByUidAux_rebuild username ((qs.map Proc.uid).dedup) qs t.groups k
      (List.nodup_dedup _) hsort (List.mem_dedup.mpr hk)
  · intro kv hkv habs
    refine splitByUidAux_preserved hkv ?_
    intro hc
    exact habs (List.mem_dedup.mp hc)

theorem C3_amended_replacement_witness :
    (((ProcessSplitterByEnvVariable.new "V").split [procNoVar]).groups =
      ((ProcessSplitterByEnvVariable.new "V").split [procNoVar]).groups) ∧
    ((2 : Nat), (⟨"user x",
        [procU2].filter (fun p => (p.uid = 2 : Bool))⟩ : ProcessGroup)) ∈
      ((ProcessSplitterByUid.new.split (fun _ => "x") [procU1]).split
        (fun _ => "x") [procU2]).groups ∧
    (1, (⟨"user x", [procU1]⟩ : ProcessGroup)) ∈
      ((ProcessSplitterByUid.new.split (fun _ => "x") [procU1]).split
        (fun _ => "x") [procU2]).groups :=
  have h := C3_amended_replacement (fun _ => "x")
    (ProcessSplitterByEnvVariable.new "V") [procNoVar]
    (ProcessSplitterByUid.new.split (fun _ => "x") [procU1]) [procU2]
  ⟨h.1, (h.2.1 (by decide) 2 (by decide)).1,
   h.2.2 (1, ⟨"user x", [procU1]⟩) (by decide) (by decide)⟩

theorem get_info_pid {pageSize : Nat} {p : Proc}
    {maps : List (MemoryMapping × List PageData)} {info : ProcessInfo}
    (h : get_info pageSize p maps = some info) : info.pid = p.pid := by
  by_cases hc : p.cmdline = []
  · rw [get_info, if_pos hc] at h
    cases h
  · rw [get_info, if_neg hc] at h
    simp only [Option.some.injEq] at h
    subst h
    rfl

theorem extractInfos_pid {pageSize : Nat}
    {getMaps : Proc → Option (List (MemoryMapping × List PageData))}
    {ps : List Proc} {i : ProcessInfo} (h : i ∈ extractInfos pageSize getMaps ps) :
    ∃ p ∈ ps, i.pid = p.pid := by
  unfold extractInfos at h
  obtain ⟨pm, hpm, hget⟩ := List.mem_filterMap.mp h
  obtain ⟨p, hp, hmap⟩ := List.mem_filterMap.mp hpm
  obtain ⟨m, hm, hpair⟩ := Option.map_eq_some'.mp hmap
  subst hpair
  exact ⟨p, hp, get_info_pid hget⟩

theorem groupInfo_pids_from {pageSize : Nat}
    {getMaps : Proc → Option (List (MemoryMapping × List PageData))}
    {g : ProcessGroup} {x : Int}
    (h : x ∈ (processes_group_info pageSize getMaps g).pids) :
    ∃ p ∈ g.processes, p.pid = x := by
  rw [processes_group_info, groupInfoOfInfos_pids] at h
  obtain ⟨i, hi, hpid⟩ := List.mem_map.mp h
  obtain ⟨p, hp, hpe⟩ := extractInfos_pid hi
  exact ⟨p, hp, by rw [← hpe, hpid]⟩

theorem uid_new_split_collect_perm (username : Nat → String) (ps : List Proc) :
    ((ProcessSplitterByUid.new.split username ps).collect_processes).Perm ps := by
  have h := splitByUidAux_collect_perm username ((ps.map Proc.uid).dedup) ps []
    (List.nodup_dedup _)
    (fun p hp => List.mem_dedup.mpr (List.mem_map_of_mem _ hp))
    (fun kv hkv => by cases hkv)
  simpa [ProcessSplitterByUid.new, ProcessSplitterByUid.split,
    ProcessSplitterByUid.collect_processes] using h

/-- C10: after main filters its own pid out of the process list, no group
of either splitting strategy holds a process with that pid, and the
program's own pid never occurs among the collected member identities of
any group aggregate. -/
theorem C10_own_pid_excluded (allProcs : List Proc) (myPid : Int)
    (username : Nat → String) (var : String) (pageSize : Nat)
    (getMaps : Proc → Option (List (MemoryMapping × List PageData))) :
    (∀ kv ∈ (ProcessSplitterByUid.new.split username
        (reportedProcesses allProcs myPid)).groups,
      (∀ p ∈ kv.2.processes, p.pid ≠ myPid) ∧
      myPid ∉ (processes_group_info pageSize getMaps kv.2).pids) ∧
    (∀ kv ∈ ((ProcessSplitterByEnvVariable.new var).split
        ((ProcessSplitterByUid.new.split username
          (reportedProcesses allProcs myPid)).collect_processes)).groups,
      (∀ p ∈ kv.2.processes, p.pid ≠ myPid) ∧
      myPid ∉ (processes_group_info pageSize getMaps kv.2).pids) := by
  have hrep : ∀ p ∈ reportedProcesses allProcs myPid, p.pid ≠ myPid := by
    intro p hp
    have h2 := (List.mem_filter.mp hp).2
    simpa using h2
  have hmem_uid : ∀ kv ∈ (ProcessSplitterByUid.new.split username
      (reportedProcesses allProcs myPid)).groups,
      ∀ p ∈ kv.2.processes, p ∈ reportedProcesses allProcs myPid := by
    intro kv hkv p hp
    rcases splitByUidAux_mem_processes hkv hp with h | ⟨kv₀, h₀, hmem⟩
    · exact h
    · cases h₀
  have hmem_env : ∀ kv ∈ ((ProcessSplitterByEnvVariable.new var).split
      ((ProcessSplitterByUid.new.split username
        (reportedProcesses allProcs myPid)).collect_processes)).groups,
      ∀ p ∈ kv.2.processes, p ∈ reportedProcesses allProcs myPid := by
    intro kv hkv p hp
    have hcol := splitByEnvAux_mem_processes hkv hp
    exact (uid_new_split_collect_perm username
      (reportedProcesses allProcs myPid)).mem_iff.mp hcol
  constructor
  · intro kv hkv
    refine ⟨fun p hp => hrep p (hmem_uid kv hkv p hp), ?_⟩
    intro hin
    obtain ⟨p, hp, hpe⟩ := groupInfo_pids_from hin
    exact hrep p (hmem_uid kv hkv p hp) hpe
  · intro kv hkv
    refine ⟨fun p hp => hrep p (hmem_env kv hkv p hp), ?_⟩
    intro hin
    obtain ⟨p, hp, hpe⟩ := groupInfo_pids_from hin
    exact hrep p (hmem_env kv hkv p hp) hpe

/-- The accounting program's own process: pid 9. -/
def procSelf : Proc := ⟨9, 0, ["self"], [], 0, 0⟩

theorem C10_own_pid_excluded_witness :
    (∀ p ∈ (⟨"user x", [procA]⟩ : ProcessGroup).processes, p.pid ≠ 9) ∧
    (9 : Int) ∉ (processes_group_info 4096 (fun _ => some [])
      (⟨"user x", [procA]⟩ : ProcessGroup)).pids :=
  (C10_own_pid_excluded [procA, procSelf] 9 (fun _ => "x") "V" 4096
    (fun _ => some [])).1 (0, ⟨"user x", [procA]⟩) (by decide)

/-- C8: with the hidden probe argument, a non-root invocation prints
exactly the one integer and exits 0 while a root invocation aborts
before printing anything; without the probe argument, a non-root
invocation aborts and a root invocation continues into reporting. -/
theorem C8_probe_dispatch (args : List String) (uid : Nat) (sgaSize : Nat) :
    (args.get? 1 = some "get_sga" →
      (uid ≠ 0 → mainDispatch args uid sgaSize =
        MainOutcome.probeOutput [toString sgaSize] 0) ∧
      (uid = 0 → mainDispatch args uid sgaSize = MainOutcome.abort [])) ∧
    (args.get? 1 ≠ some "get_sga" →
      (uid ≠ 0 → mainDispatch args uid sgaSize = MainOutcome.abort []) ∧
      (uid = 0 → mainDispatch args uid sgaSize = MainOutcome.report)) := by
  constructor
  · intro h
    rw [List.get?_eq_getElem?] at h
    constructor
    · intro hu
      simp [mainDispatch, h, hu]
    · intro hu
      simp [mainDispatch, h, hu]
  · intro h
    rw [List.get?_eq_getElem?] at h
    constructor
    · intro hu
      simp [mainDispatch, h, hu]
    · intro hu
      simp [mainDispatch, h, hu]

theorem C8_probe_dispatch_witness :
    mainDispatch ["prog", "get_sga"] 1000 42 =
      MainOutcome.probeOutput [toString 42] 0 ∧
    mainDispatch ["prog", "get_sga"] 0 42 = MainOutcome.abort [] ∧
    mainDispatch ["prog"] 1000 42 = MainOutcome.abort [] :=
  ⟨((C8_probe_dispatch ["prog", "get_sga"] 1000 42).1 (by decide)).1 (by decide),
   ((C8_probe_dispatch ["prog", "get_sga"] 0 42).1 (by decide)).2 rfl,
   ((C8_probe_dispatch ["prog"] 1000 42).2 (by decide)).1 (by decide)⟩

/-- C4: with a probe report parsing to 999 bytes and a single enumerated
segment of 4096 bytes, get_smon_info ends in a panic through expect
rather than returning an Err, so the discovery loop over the candidates
aborts the whole run instead of skipping the instance and continuing. -/
theorem C4_no_matching_segment_panics :
    get_smon_info 1 "ORCL" ⟨true, some "999"⟩ (fun _ => some 999)
      [⟨1, 1, 4096⟩] (fun _ => ∅) = SmonOutcome.panic "shm for sga not found" ∧
    runDiscovery (fun _ => get_smon_info 1 "ORCL" ⟨true, some "999"⟩
      (fun _ => some 999) [⟨1, 1, 4096⟩] (fun _ => ∅)) [()] =
      Except.error "shm for sga not found" := by
  constructor
  · rfl
  · rfl

/-- C1: the rss figure of the reporting loop equals the cardinality of
the deduplicated union of the members' frame sets times the page size;
the uss figure counts exactly the group frames lying in no other group
(other groups selected by group-name inequality); and with exactly two
groups of distinct names, the frames excluded from the first group's uss
figure are exactly the frames shared by the two groups. -/
theorem C1_rss_uss_semantics (pageSize : Nat)
    (getMaps : Proc → Option (List (MemoryMapping × List PageData)))
    (groups : List ProcessGroup) (g : ProcessGroup) :
    groupRss pageSize getMaps g =
      (listUnion ((extractInfos pageSize getMaps g.processes).map
        ProcessInfo.pfns)).card * pageSize ∧
    (∀ x, x ∈ ussSet pageSize getMaps groups g ↔
      x ∈ (processes_group_info pageSize getMaps g).pfns ∧
        ∀ g2 ∈ groups, g.name ≠ g2.name →
          x ∉ (processes_group_info pageSize getMaps g2).pfns) ∧
    (∀ A B : ProcessGroup, A.name ≠ B.name →
      (processes_group_info pageSize getMaps A).pfns \
          ussSet pageSize getMaps [A, B] A =
        (processes_group_info pageSize getMaps A).pfns ∩
          (processes_group_info pageSize getMaps B).pfns) := by
  refine ⟨?_, ?_, ?_⟩
  · rw [groupRss, processes_group_info, groupInfoOfInfos_pfns]
  · intro x
    rw [ussSet, Finset.mem_sdiff, othersUnion, foldl_union_eq,
      Finset.empty_union]
    constructor
    · rintro ⟨hx, hnot⟩
      refine ⟨hx, ?_⟩
      intro g2 hg2 hne hxin
      exact hnot (mem_listUnion.mpr ⟨_, List.mem_map_of_mem _
        (List.mem_filter.mpr ⟨hg2, by simpa using hne⟩), hxin⟩)
    · rintro ⟨hx, hall⟩
      refine ⟨hx, ?_⟩
      intro hin
      obtain ⟨s, hs, hxs⟩ := mem_listUnion.mp hin
      obtain ⟨g2, hg2, hfe⟩ := List.mem_map.mp hs
      subst hfe
      have hf := List.mem_filter.mp hg2
      exact hall g2 hf.1 (by simpa using hf.2) hxs
  · intro A B hAB
    have hfil : ([A, B].filter (fun g2 => !(A.name = g2.name : Bool))) = [B] := by
      simp [List.filter_cons, hAB]
    rw [ussSet, othersUnion, hfil, foldl_union_eq, Finset.empty_union]
    simp only [List.map_cons, List.map_nil, listUnion, Finset.union_empty]
    rw [sdiff_sdiff_right_self, Finset.inf_eq_inter]

/-- Memory-map resolution used by the C1 witness: the pid-1 process maps
frames 1 and 2, every other process maps frame 1 only. -/
def gmW : Proc → Option (List (MemoryMapping × List PageData)) :=
  fun p =>
    if p.pid = 1 then
      some [(⟨0, 8192⟩, [PageData.memoryPage 1, PageData.memoryPage 2])]
    else
      some [(⟨0, 4096⟩, [PageData.memoryPage 1])]

/-- Witness group of name a holding the pid-1 process. -/
def gA : ProcessGroup := ⟨"a", [procA]⟩

/-- Witness group of name b holding the pid-2 process. -/
def gB : ProcessGroup := ⟨"b", [procB]⟩

theorem C1_rss_uss_semantics_witness :
    (processes_group_info 4096 gmW gA).pfns \ ussSet 4096 gmW [gA, gB] gA =
      (processes_group_info 4096 gmW gA).pfns ∩
        (processes_group_info 4096 gmW gB).pfns :=
  (C1_rss_uss_semantics 4096 gmW [gA, gB] gA).2.2 gA gB (by decide)
